import Mathlib

/-!
Verification of the two documentation-generation utilities of this repository:
`doc/module_graph.py` (a memoized depth-first traversal over the dependency
relation reported by `bin/moc --print-deps`, serialized as a Graphviz
document) and `doc/module_nav.py` (a sorted navigation index over module
names).

The Python scripts are shallowly embedded below.  Strings stand for file
paths and captured standard output; the `subprocess.run` invocation is
modelled as a pure resolver function `String → RunOut`; the module-level
`edges` defaultdict and the order of tool invocations are threaded through an
explicit state `St`; the unbounded Python recursion of `list_deps` is given a
fuel parameter (running out of fuel is a model artifact, reported as a
distinguished outcome and never identified with any Python behaviour).
-/

namespace ModuleDoc

/-- Split a character list at every occurrence of `sep` (the single-character
case of Python `str.split(sep)`); the result is always nonempty and keeps
empty pieces.  `cur` accumulates the current piece in reverse. -/
def splitCharAux (sep : Char) : List Char → List Char → List (List Char)
  | [], cur => [cur.reverse]
  | c :: cs, cur =>
    if c == sep then cur.reverse :: splitCharAux sep cs []
    else splitCharAux sep cs (c :: cur)

/-- Python `str.splitlines()` restricted to the newline separator, which is
the form the captured tool output takes (`universal_newlines=True` already
translates `\r\n` to `\n`): split on `\n`, without a trailing empty piece. -/
def splitlines (s : String) : List String :=
  if s.data = [] then []
  else
    let parts := splitCharAux '\n' s.data []
    (if parts.getLast? = some [] then parts.dropLast else parts).map String.mk

/-- Worker for Python `str.split()` with no argument: split on runs of
whitespace, dropping empty tokens; `cur` accumulates the current token in
reverse. -/
def splitWsAux : List Char → List Char → List String
  | [], cur => if cur.isEmpty then [] else [String.mk cur.reverse]
  | c :: cs, cur =>
    if c.isWhitespace then
      if cur.isEmpty then splitWsAux cs []
      else String.mk cur.reverse :: splitWsAux cs []
    else splitWsAux cs (c :: cur)

/-- Python `str.split()` with no argument. -/
def pySplit (s : String) : List String :=
  splitWsAux s.data []

/-- The result of one `subprocess.run(["bin/moc", "--print-deps", path],
stdout=PIPE, universal_newlines=True)` call: the process exit code and the
captured standard output.  The script never reads `exitCode` (no
`check=True` is passed), which is exactly what claim C2 is about. -/
structure RunOut where
  exitCode : Int
  stdout : String
deriving DecidableEq

/-- The mutable state of `module_graph.py`: the `edges` defaultdict, as an
insertion-ordered association list from file path to the list of recorded
dependency targets (a path becomes a key at its first `append`, exactly as a
`defaultdict` key materializes on first access), together with the log of
paths passed to the external tool, in invocation order. -/
structure St where
  edges : List (String × List String)
  calls : List String
deriving DecidableEq

/-- `path in edges` — membership among the keys of the association list. -/
def hasKey (es : List (String × List String)) (p : String) : Bool :=
  es.any (fun e => e.1 == p)

/-- `edges[path].append(dep)` on the insertion-ordered association list:
append to the existing entry, or create the key at the end. -/
def addEdge (es : List (String × List String)) (p d : String) :
    List (String × List String) :=
  match es with
  | [] => [(p, [d])]
  | e :: rest => if e.1 == p then (e.1, e.2 ++ [d]) :: rest else e :: addEdge rest p d

/-- The keys of the mapping, in insertion order (`edges.keys()`). -/
def keysOf (es : List (String × List String)) : List String :=
  es.map Prod.fst

/-- All `(path, dep)` pairs recorded in the mapping, in emission order (the
order of the nested printing loops of the script). -/
def pairsOf (es : List (String × List String)) : List (String × String) :=
  es.flatMap (fun e => e.2.map (fun d => (e.1, d)))

/-- Outcome of running the traversal: normal completion, the uncaught Python
`IndexError` raised by `line.split()[-1]` on a token-free line, or fuel
exhaustion (model artifact only). -/
inductive DRes where
  | ok (st : St)
  | indexError
  | outOfFuel
deriving DecidableEq

/-- The body of the `for line in output.stdout.splitlines()` loop of
`list_deps`, parametrised by the recursive call `ld` performed on each
recorded dependency.  A line exactly equal to `"mo:prim"` is skipped
(`continue`); otherwise the last whitespace-separated token is taken —
raising `IndexError` if the line has no tokens — the edge is appended, and
the traversal recurses into the dependency. -/
def depLoop (ld : String → St → DRes) (path : String) :
    List String → St → DRes
  | [], st => .ok st
  | line :: rest, st =>
    if line == "mo:prim" then depLoop ld path rest st
    else
      match (pySplit line).getLast? with
      | none => .indexError
      | some dep =>
        match ld dep ⟨addEdge st.edges path dep, st.calls⟩ with
        | .ok st2 => depLoop ld path rest st2
        | .indexError => .indexError
        | .outOfFuel => .outOfFuel

/-- `list_deps` of `module_graph.py`.  `out path` is the captured standard
output of the tool invocation for `path`.  The memoization check `if path in
edges: return` precedes the subprocess call; only then is the path appended
to the invocation log and its output processed line by line. -/
def list_deps (out : String → String) : Nat → String → St → DRes
  | 0, _, _ => .outOfFuel
  | fuel + 1, path, st =>
    if hasKey st.edges path then .ok st
    else
      depLoop (fun d s => list_deps out fuel d s) path (splitlines (out path))
        ⟨st.edges, st.calls ++ [path]⟩

/-- One iteration of the discovery loop: run `list_deps` on the next
discovered file unless an exception has already been raised. -/
def topStep (out : String → String) (fuel : Nat) (acc : DRes) (f : String) : DRes :=
  match acc with
  | .ok st => list_deps out fuel f st
  | .indexError => .indexError
  | .outOfFuel => .outOfFuel

/-- The discovery loop `for file in glob.glob(...): list_deps(file)`, started
from the empty mapping.  An uncaught exception aborts the whole loop. -/
def topRun (out : String → String) (fuel : Nat) (files : List String) : DRes :=
  files.foldl (topStep out fuel) (.ok ⟨[], []⟩)

/-- The two nested printing loops over `edges.items()`: one output line per
recorded `(path, dep)` pair, in insertion order. -/
def renderEdges (es : List (String × List String)) : String :=
  String.join (es.map (fun e =>
    String.join (e.2.map (fun d => "  \"" ++ e.1 ++ "\" -> \"" ++ d ++ "\"\n"))))

/-- The stdout function induced by a resolver: the script reads only the
captured standard output of each `subprocess.run` result. -/
def stdoutOf (resolver : String → RunOut) : String → String :=
  fun p => (resolver p).stdout

/-- Reasons the exporter produces no document: an uncaught `IndexError`
during traversal, or fuel exhaustion (model artifact). -/
inductive PyAbort where
  | indexError
  | outOfFuel
deriving DecidableEq

deriving instance DecidableEq for Except

/-- The whole of `module_graph.py`: discover, traverse, then print the
Graphviz document (header line, one edge statement per recorded pair, footer
line).  The printing happens only after the full traversal, so an uncaught
exception during traversal yields no document at all. -/
def module_graph_output (resolver : String → RunOut) (fuel : Nat)
    (files : List String) : Except PyAbort String :=
  match topRun (stdoutOf resolver) fuel files with
  | .ok st => .ok ("digraph Base \x7b\n" ++ renderEdges st.edges ++ "\x7d\n")
  | .indexError => .error .indexError
  | .outOfFuel => .error .outOfFuel

/-- A resolver given by a finite table; paths absent from the table resolve
to empty output with exit code 0.  Used for concrete scenarios and for
finite-support termination arguments. -/
def alistResolver (a : List (String × RunOut)) (p : String) : RunOut :=
  match a.find? (fun e => e.1 == p) with
  | some e => e.2
  | none => ⟨0, ""⟩

/-- `os.path.basename`: the component after the last path separator. -/
def basename (path : String) : String :=
  String.mk ((splitCharAux '/' path.data []).getLastD [])

/-- The root part of `os.path.splitext`: drop the suffix starting at the last
dot, where leading dots of the name never start an extension. -/
def splitextRoot (base : String) : String :=
  let lead := base.data.takeWhile (fun c => c == '.')
  let rest := base.data.drop lead.length
  if rest.contains '.' then
    String.mk (lead ++ ((rest.reverse.dropWhile (fun c => c != '.')).reverse).dropLast)
  else base

/-- `os.path.splitext(os.path.basename(file))[0]` of `module_nav.py`. -/
def module_name (file : String) : String :=
  splitextRoot (basename file)

/-- `sort_name` of `module_nav.py`: strip trailing ASCII digits to obtain the
head, parse the stripped digits as the numeric tail (`0` when no digits were
stripped). -/
def sort_name (name : String) : String × Nat :=
  let headChars := (name.data.reverse.dropWhile (fun c => '0' ≤ c && c ≤ '9')).reverse
  let tailChars := name.data.drop headChars.length
  (String.mk headChars, tailChars.foldl (fun n c => 10 * n + (c.toNat - 48)) 0)

/-- Python string comparison: lexicographic by code point, a strict prefix
comparing less. -/
def charsLt : List Char → List Char → Bool
  | [], [] => false
  | [], _ :: _ => true
  | _ :: _, [] => false
  | a :: as, b :: bs =>
    if a.toNat < b.toNat then true
    else if b.toNat < a.toNat then false
    else charsLt as bs

/-- Strict comparison of two sort keys, Python tuple comparison:
lexicographic on the head string (by code point), then numeric on the tail. -/
def keyLt (a b : String × Nat) : Bool :=
  if a.1 = b.1 then decide (a.2 < b.2) else charsLt a.1.data b.1.data

/-- Non-strict key comparison used by the stable sort. -/
def keyLe (a b : String × Nat) : Bool :=
  if a.1 = b.1 then decide (a.2 ≤ b.2) else charsLt a.1.data b.1.data

/-- Stable insertion of an element in front of the first list element it
compares `le` to (equal elements therefore keep their original order). -/
def insSorted (le : α → α → Bool) (x : α) : List α → List α
  | [] => [x]
  | y :: ys => if le x y then x :: y :: ys else y :: insSorted le x ys

/-- A stable sort.  `list.sort(key=...)` of Python is a stable sort by the
key's total preorder, and every stable sort computes the same list. -/
def stableSort (le : α → α → Bool) : List α → List α
  | [] => []
  | x :: xs => insSorted le x (stableSort le xs)

/-- `names.sort(key=sort_name)`. -/
def sortByKey (names : List String) : List String :=
  stableSort (fun a b => keyLe (sort_name a) (sort_name b)) names

/-- The whole of `module_nav.py`: derive module names from the discovered
files, sort them by `sort_name`, and print the fixed top-level line followed
by one cross-reference line per name. -/
def module_nav_output (files : List String) : String :=
  let sorted := sortByKey (files.map module_name)
  "* xref:stdlib-intro.adoc[Motoko Base Library]\n" ++
    String.join (sorted.map (fun n => "** xref:./" ++ n ++ ".adoc[" ++ n ++ "]\n"))

/-- Spec-side `resolve_dependencies` (specification section 4.1), stated on a
list of output lines: take the last whitespace-separated token of each line,
skipping lines exactly equal to the primitive-module sentinel. -/
def depsOfLines (lines : List String) : List String :=
  lines.filterMap (fun l => if l == "mo:prim" then none else (pySplit l).getLast?)

/-- Spec-side dependency targets of one file. -/
def specDeps (out : String → String) (p : String) : List String :=
  depsOfLines (splitlines (out p))

/-- Spec-side transitive reachability from the discovered source files via
the reported dependencies (specification section 4.1, `traverse`). -/
inductive SpecReach (out : String → String) (files : List String) : String → Prop where
  | base {f : String} : f ∈ files → SpecReach out files f
  | step {f d : String} : SpecReach out files f → d ∈ specDeps out f →
      SpecReach out files d

/-- A file is fully recorded in a state when every one of its spec-side
dependency targets appears as a pair of the mapping. -/
def Complete (out : String → String) (st : St) (q : String) : Prop :=
  ∀ d ∈ specDeps out q, (q, d) ∈ pairsOf st.edges

/-- The number of paths of `K` that are not yet keys of the mapping; the
termination measure of the traversal. -/
def missing (K : List String) (es : List (String × List String)) : Nat :=
  (K.filter (fun k => ! hasKey es k)).length

/-- The soundness invariant: every key is reachable, and every recorded pair
is a reachable source together with one of its spec-side dependency
targets. -/
def SoundInv (out : String → String) (files : List String)
    (es : List (String × List String)) : Prop :=
  (∀ q, hasKey es q = true → SpecReach out files q) ∧
  (∀ a b, (a, b) ∈ pairsOf es → SpecReach out files a ∧ b ∈ specDeps out a)

/-- The mapping grows monotonically along the traversal: keys and recorded
pairs are only ever added. -/
def Sub (es es' : List (String × List String)) : Prop :=
  (∀ q, hasKey es q = true → hasKey es' q = true) ∧
  (∀ a b, (a, b) ∈ pairsOf es → (a, b) ∈ pairsOf es')

theorem Sub.rfl {es : List (String × List String)} : Sub es es :=
  ⟨fun _ h => h, fun _ _ h => h⟩

theorem Sub.trans {e1 e2 e3 : List (String × List String)}
    (h : Sub e1 e2) (h' : Sub e2 e3) : Sub e1 e3 :=
  ⟨fun q hq => h'.1 q (h.1 q hq), fun a b hab => h'.2 a b (h.2 a b hab)⟩

theorem hasKey_iff_mem {es : List (String × List String)} {p : String} :
    hasKey es p = true ↔ p ∈ keysOf es := by
  induction es with
  | nil => simp [hasKey, keysOf]
  | cons e rest ih =>
    simp only [hasKey, keysOf, List.any_cons, List.map_cons, List.mem_cons,
      Bool.or_eq_true, beq_iff_eq] at ih ⊢
    constructor
    · rintro (h | h)
      · exact Or.inl h.symm
      · exact Or.inr (ih.1 h)
    · rintro (h | h)
      · exact Or.inl h.symm
      · exact Or.inr (ih.2 h)

theorem hasKey_addEdge (es : List (String × List String)) (p d q : String) :
    hasKey (addEdge es p d) q = (hasKey es q || q == p) := by
  induction es with
  | nil => simp [addEdge, hasKey, BEq.comm]
  | cons e rest ih =>
    by_cases h : (e.1 == p) = true
    · have hp : e.1 = p := beq_iff_eq.1 h
      simp [addEdge, h, hasKey, hp]
      by_cases hq : q = p <;> simp [hq, BEq.comm]
    · simp only [addEdge, h, Bool.false_eq_true, if_false, hasKey, List.any_cons] at ih ⊢
      rw [ih, Bool.or_assoc]

theorem hasKey_addEdge_self (es : List (String × List String)) (p d : String) :
    hasKey (addEdge es p d) p = true := by
  simp [hasKey_addEdge]

theorem hasKey_addEdge_mono {es : List (String × List String)} {q : String}
    (p d : String) (h : hasKey es q = true) : hasKey (addEdge es p d) q = true := by
  simp [hasKey_addEdge, h]

theorem hasKey_addEdge_of_hasKey {es : List (String × List String)} {p : String}
    (d q : String) (h : hasKey es p = true) :
    hasKey (addEdge es p d) q = hasKey es q := by
  rw [hasKey_addEdge]
  by_cases hq : q = p
  · subst hq; simp [h]
  · simp [hq]

theorem keysOf_addEdge (es : List (String × List String)) (p d : String) :
    keysOf (addEdge es p d) =
      if hasKey es p then keysOf es else keysOf es ++ [p] := by
  induction es with
  | nil => simp [addEdge, keysOf, hasKey]
  | cons e rest ih =>
    by_cases h : (e.1 == p) = true
    · simp [addEdge, h, keysOf, hasKey, List.any_cons]
    · simp only [addEdge, h, Bool.false_eq_true, if_false, keysOf, List.map_cons] at ih ⊢
      rw [ih]
      have hcons : hasKey (e :: rest) p = hasKey rest p := by
        simp [hasKey, List.any_cons, h]
      rw [hcons]
      by_cases hr : hasKey rest p = true <;> simp [hr]

theorem nodup_keysOf_addEdge {es : List (String × List String)} (p d : String)
    (h : (keysOf es).Nodup) : (keysOf (addEdge es p d)).Nodup := by
  rw [keysOf_addEdge]
  by_cases hk : hasKey es p = true
  · simp [hk, h]
  · have hp : p ∉ keysOf es := fun hm => hk (hasKey_iff_mem.2 hm)
    simp [hk, List.nodup_append, h, hp]

theorem mem_map_pair {k a b : String} {ds : List String} :
    (a, b) ∈ ds.map (fun x => (k, x)) ↔ a = k ∧ b ∈ ds := by
  constructor
  · rintro hm
    obtain ⟨x, hx, he⟩ := List.mem_map.1 hm
    injection he with h1 h2
    subst h1; subst h2
    exact ⟨rfl, hx⟩
  · rintro ⟨ha, hb⟩
    subst ha
    exact List.mem_map.2 ⟨b, hb, rfl⟩

theorem pairsOf_cons (e : String × List String) (rest : List (String × List String)) :
    pairsOf (e :: rest) = e.2.map (fun x => (e.1, x)) ++ pairsOf rest := rfl

theorem mem_pairsOf {es : List (String × List String)} {a b : String} :
    (a, b) ∈ pairsOf es ↔ ∃ ds, (a, ds) ∈ es ∧ b ∈ ds := by
  simp only [pairsOf, List.mem_flatMap, List.mem_map]
  constructor
  · rintro ⟨e, he, d, hd, heq⟩
    injection heq with h1 h2
    subst h1; subst h2
    exact ⟨e.2, he, hd⟩
  · rintro ⟨ds, hds, hb⟩
    exact ⟨(a, ds), hds, b, hb, rfl⟩

theorem hasKey_of_mem_pairsOf {es : List (String × List String)} {a b : String}
    (h : (a, b) ∈ pairsOf es) : hasKey es a = true := by
  obtain ⟨ds, hds, _⟩ := mem_pairsOf.1 h
  exact hasKey_iff_mem.2 (List.mem_map.2 ⟨(a, ds), hds, rfl⟩)

theorem mem_pairsOf_addEdge {es : List (String × List String)} {p d a b : String} :
    (a, b) ∈ pairsOf (addEdge es p d) ↔ (a, b) ∈ pairsOf es ∨ (a = p ∧ b = d) := by
  induction es with
  | nil =>
    simp only [addEdge, pairsOf, List.flatMap_cons, List.flatMap_nil, List.append_nil,
      mem_map_pair, List.mem_nil_iff, List.mem_singleton, false_or]
  | cons e rest ih =>
    by_cases h : (e.1 == p) = true
    · have hp : e.1 = p := beq_iff_eq.1 h
      subst hp
      have hred : addEdge (e :: rest) e.1 d = (e.1, e.2 ++ [d]) :: rest := by
        simp [addEdge]
      rw [hred, pairsOf_cons, pairsOf_cons]
      simp only [List.mem_append, mem_map_pair, List.mem_singleton]
      tauto
    · have hred : addEdge (e :: rest) p d = e :: addEdge rest p d := by
        simp [addEdge, h]
      rw [hred, pairsOf_cons, pairsOf_cons]
      simp only [List.mem_append]
      rw [ih, or_assoc]


theorem mem_pairsOf_addEdge_self (es : List (String × List String)) (p d : String) :
    (p, d) ∈ pairsOf (addEdge es p d) :=
  mem_pairsOf_addEdge.2 (Or.inr ⟨rfl, rfl⟩)

theorem Sub.addEdge (es : List (String × List String)) (p d : String) :
    Sub es (addEdge es p d) :=
  ⟨fun _ hq => hasKey_addEdge_mono p d hq,
   fun _ _ hab => mem_pairsOf_addEdge.2 (Or.inl hab)⟩

/-- `Complete` only grows along the traversal. -/
theorem Complete.mono {out : String → String} {st st' : St} {q : String}
    (hsub : Sub st.edges st'.edges) (h : Complete out st q) : Complete out st' q :=
  fun d hd => hsub.2 q d (h d hd)

/-! ### Monotonicity of the traversal -/

theorem depLoop_sub (ld : String → St → DRes) (path : String)
    (hld : ∀ d s s', ld d s = .ok s' → Sub s.edges s'.edges) :
    ∀ lines (st st' : St), depLoop ld path lines st = .ok st' → Sub st.edges st'.edges := by
  intro lines
  induction lines with
  | nil =>
    intro st st' h
    simp only [depLoop] at h
    cases h
    exact Sub.rfl
  | cons line rest ih =>
    intro st st' h
    simp only [depLoop] at h
    split at h
    · exact ih st st' h
    · split at h
      · cases h
      · rename_i dep hl
        split at h
        · rename_i st2 heq
          exact Sub.trans (Sub.trans (Sub.addEdge st.edges path dep) (hld dep _ st2 heq))
            (ih st2 st' h)
        · cases h
        · cases h

theorem list_deps_sub (out : String → String) :
    ∀ (fuel : Nat) (p : String) (st st' : St),
      list_deps out fuel p st = .ok st' → Sub st.edges st'.edges := by
  intro fuel
  induction fuel with
  | zero => intro p st st' h; simp only [list_deps] at h; cases h
  | succ n ih =>
    intro p st st' h
    simp only [list_deps] at h
    split at h
    · cases h
      exact Sub.rfl
    · exact depLoop_sub (fun d s => list_deps out n d s) p
        (fun d s s' hh => ih d s s' hh) (splitlines (out p))
        ⟨st.edges, st.calls ++ [p]⟩ st' h

/-! ### Processing of individual lines -/

theorem depsOfLines_cons_sentinel {line : String} (rest : List String)
    (h : (line == "mo:prim") = true) :
    depsOfLines (line :: rest) = depsOfLines rest := by
  have h' : line = "mo:prim" := beq_iff_eq.1 h
  simp [depsOfLines, h']

theorem depsOfLines_cons_real {line dep : String} (rest : List String)
    (hs : (line == "mo:prim") = false) (hl : (pySplit line).getLast? = some dep) :
    depsOfLines (line :: rest) = dep :: depsOfLines rest := by
  have hs' : ¬ line = "mo:prim" := by simpa using hs
  simp [depsOfLines, hs', hl]

theorem mem_depsOfLines {lines : List String} {d : String} :
    d ∈ depsOfLines lines ↔
      ∃ l ∈ lines, (l == "mo:prim") = false ∧ (pySplit l).getLast? = some d := by
  simp only [depsOfLines, List.mem_filterMap]
  constructor
  · rintro ⟨l, hl, he⟩
    by_cases hs : (l == "mo:prim") = true
    · rw [if_pos hs] at he; cases he
    · rw [if_neg hs] at he
      exact ⟨l, hl, Bool.eq_false_iff.2 hs, he⟩
  · rintro ⟨l, hl, hs, he⟩
    refine ⟨l, hl, ?_⟩
    rw [if_neg ?_, he]
    simp [hs]

/-- In a loop run that completes normally, every non-sentinel line had at
least one whitespace-separated token. -/
theorem depLoop_wf (ld : String → St → DRes) (path : String) :
    ∀ lines (st st' : St), depLoop ld path lines st = .ok st' →
      ∀ l ∈ lines, (l == "mo:prim") = false → ∃ d, (pySplit l).getLast? = some d := by
  intro lines
  induction lines with
  | nil => intro st st' _ l hl; cases hl
  | cons line rest ih =>
    intro st st' h l hl hlf
    simp only [depLoop] at h
    split at h
    · rename_i hs
      rcases List.mem_cons.1 hl with hle | hlr
      · subst hle; rw [hs] at hlf; cases hlf
      · exact ih _ st' h l hlr hlf
    · split at h
      · cases h
      · rename_i dep hlast
        split at h
        · rcases List.mem_cons.1 hl with hle | hlr
          · subst hle; exact ⟨dep, hlast⟩
          · exact ih _ st' h l hlr hlf
        · cases h
        · cases h

/-- Every dependency token of the processed line list is recorded as a pair
of the final mapping. -/
theorem depLoop_pairs (ld : String → St → DRes) (path : String)
    (hld : ∀ d s s', ld d s = .ok s' → Sub s.edges s'.edges) :
    ∀ lines (st st' : St), depLoop ld path lines st = .ok st' →
      ∀ d ∈ depsOfLines lines, (path, d) ∈ pairsOf st'.edges := by
  intro lines
  induction lines with
  | nil => intro st st' _ d hd; simp [depsOfLines] at hd
  | cons line rest ih =>
    intro st st' h d hd
    simp only [depLoop] at h
    split at h
    · rename_i hs
      rw [depsOfLines_cons_sentinel rest hs] at hd
      exact ih st st' h d hd
    · rename_i hs
      split at h
      · cases h
      · rename_i dep hlast
        split at h
        · rename_i st2 heq
          rw [depsOfLines_cons_real rest (Bool.eq_false_iff.2 hs) hlast] at hd
          rcases List.mem_cons.1 hd with hde | hdr
          · exact hde ▸ (depLoop_sub ld path hld rest st2 st' h).2 path dep
              ((hld dep _ st2 heq).2 path dep (mem_pairsOf_addEdge_self st.edges path dep))
          · exact ih st2 st' h d hdr
        · cases h
        · cases h

/-! ### No duplicate keys -/

theorem depLoop_nodup (ld : String → St → DRes) (path : String)
    (hld : ∀ d s s', ld d s = .ok s' →
      (keysOf s.edges).Nodup → (keysOf s'.edges).Nodup) :
    ∀ lines (st st' : St), depLoop ld path lines st = .ok st' →
      (keysOf st.edges).Nodup → (keysOf st'.edges).Nodup := by
  intro lines
  induction lines with
  | nil => intro st st' h hn; simp only [depLoop] at h; cases h; exact hn
  | cons line rest ih =>
    intro st st' h hn
    simp only [depLoop] at h
    split at h
    · exact ih st st' h hn
    · split at h
      · cases h
      · rename_i dep hlast
        split at h
        · rename_i st2 heq
          exact ih st2 st' h (hld dep _ st2 heq (nodup_keysOf_addEdge path dep hn))
        · cases h
        · cases h

theorem list_deps_nodup (out : String → String) :
    ∀ (fuel : Nat) (p : String) (st st' : St),
      list_deps out fuel p st = .ok st' →
      (keysOf st.edges).Nodup → (keysOf st'.edges).Nodup := by
  intro fuel
  induction fuel with
  | zero => intro p st st' h; simp only [list_deps] at h; cases h
  | succ n ih =>
    intro p st st' h hn
    simp only [list_deps] at h
    split at h
    · cases h; exact hn
    · exact depLoop_nodup (fun d s => list_deps out n d s) p
        (fun d s s' hh => ih d s s' hh) (splitlines (out p))
        ⟨st.edges, st.calls ++ [p]⟩ st' h hn

/-- After a completed `list_deps` call, the argument path is either an old
key or fully recorded. -/
theorem list_deps_self (out : String → String) (fuel : Nat) (p : String)
    (st st' : St) (h : list_deps out fuel p st = .ok st') :
    hasKey st.edges p = true ∨ Complete out st' p := by
  cases fuel with
  | zero => simp only [list_deps] at h; cases h
  | succ n =>
    simp only [list_deps] at h
    split at h
    · rename_i hk; exact Or.inl hk
    · refine Or.inr (fun d hd => ?_)
      exact depLoop_pairs (fun d s => list_deps out n d s) p
        (fun d s s' hh => list_deps_sub out n d s s' hh) (splitlines (out p))
        ⟨st.edges, st.calls ++ [p]⟩ st' h d hd

/-! ### Where keys and pairs come from -/

/-- Every key created by the loop belongs to a path whose output has at
least one non-sentinel line. -/
theorem depLoop_newkeys_real (out : String → String) (ld : String → St → DRes)
    (path : String)
    (hld : ∀ d s s', ld d s = .ok s' → ∀ q, hasKey s'.edges q = true →
      hasKey s.edges q = true ∨ ∃ l ∈ splitlines (out q), (l == "mo:prim") = false) :
    ∀ lines (st st' : St), (∀ l ∈ lines, l ∈ splitlines (out path)) →
      depLoop ld path lines st = .ok st' →
      ∀ q, hasKey st'.edges q = true →
        hasKey st.edges q = true ∨ ∃ l ∈ splitlines (out q), (l == "mo:prim") = false := by
  intro lines
  induction lines with
  | nil => intro st st' _ h q hq; simp only [depLoop] at h; cases h; exact Or.inl hq
  | cons line rest ih =>
    intro st st' hlines h q hq
    simp only [depLoop] at h
    split at h
    · exact ih st st' (fun l hl => hlines l (List.mem_cons_of_mem line hl)) h q hq
    · rename_i hs
      split at h
      · cases h
      · rename_i dep hlast
        split at h
        · rename_i st2 heq
          rcases ih st2 st' (fun l hl => hlines l (List.mem_cons_of_mem line hl)) h q hq
            with h2 | h2
          · rcases hld dep _ st2 heq q h2 with h3 | h3
            · rw [hasKey_addEdge, Bool.or_eq_true] at h3
              rcases h3 with h4 | h4
              · exact Or.inl h4
              · have hqp : q = path := beq_iff_eq.1 h4
                subst hqp
                exact Or.inr ⟨line, hlines line (List.mem_cons_self line rest),
                  Bool.eq_false_iff.2 hs⟩
            · exact Or.inr h3
          · exact Or.inr h2
        · cases h
        · cases h

theorem list_deps_newkeys_real (out : String → String) :
    ∀ (fuel : Nat) (p : String) (st st' : St),
      list_deps out fuel p st = .ok st' →
      ∀ q, hasKey st'.edges q = true →
        hasKey st.edges q = true ∨ ∃ l ∈ splitlines (out q), (l == "mo:prim") = false := by
  intro fuel
  induction fuel with
  | zero => intro p st st' h; simp only [list_deps] at h; cases h
  | succ n ih =>
    intro p st st' h q hq
    simp only [list_deps] at h
    split at h
    · cases h; exact Or.inl hq
    · exact depLoop_newkeys_real out (fun d s => list_deps out n d s) p
        (fun d s s' hh => ih d s s' hh) (splitlines (out p))
        ⟨st.edges, st.calls ++ [p]⟩ st' (fun l hl => hl) h q hq

/-- Every pair recorded by the loop originates from a non-sentinel output
line of its source path whose last token is the target. -/
theorem depLoop_origin (out : String → String) (ld : String → St → DRes)
    (path : String)
    (hld : ∀ d s s', ld d s = .ok s' → ∀ a b, (a, b) ∈ pairsOf s'.edges →
      (a, b) ∈ pairsOf s.edges ∨
        ∃ l ∈ splitlines (out a), (l == "mo:prim") = false ∧
          (pySplit l).getLast? = some b) :
    ∀ lines (st st' : St), (∀ l ∈ lines, l ∈ splitlines (out path)) →
      depLoop ld path lines st = .ok st' →
      ∀ a b, (a, b) ∈ pairsOf st'.edges →
        (a, b) ∈ pairsOf st.edges ∨
          ∃ l ∈ splitlines (out a), (l == "mo:prim") = false ∧
            (pySplit l).getLast? = some b := by
  intro lines
  induction lines with
  | nil => intro st st' _ h a b hab; simp only [depLoop] at h; cases h; exact Or.inl hab
  | cons line rest ih =>
    intro st st' hlines h a b hab
    simp only [depLoop] at h
    split at h
    · exact ih st st' (fun l hl => hlines l (List.mem_cons_of_mem line hl)) h a b hab
    · rename_i hs
      split at h
      · cases h
      · rename_i dep hlast
        split at h
        · rename_i st2 heq
          rcases ih st2 st' (fun l hl => hlines l (List.mem_cons_of_mem line hl)) h a b hab
            with h2 | h2
          · rcases hld dep _ st2 heq a b h2 with h3 | h3
            · rcases mem_pairsOf_addEdge.1 h3 with h4 | ⟨ha, hb⟩
              · exact Or.inl h4
              · subst ha; subst hb
                exact Or.inr ⟨line, hlines line (List.mem_cons_self line rest),
                  Bool.eq_false_iff.2 hs, hlast⟩
            · exact Or.inr h3
          · exact Or.inr h2
        · cases h
        · cases h

theorem list_deps_origin (out : String → String) :
    ∀ (fuel : Nat) (p : String) (st st' : St),
      list_deps out fuel p st = .ok st' →
      ∀ a b, (a, b) ∈ pairsOf st'.edges →
        (a, b) ∈ pairsOf st.edges ∨
          ∃ l ∈ splitlines (out a), (l == "mo:prim") = false ∧
            (pySplit l).getLast? = some b := by
  intro fuel
  induction fuel with
  | zero => intro p st st' h; simp only [list_deps] at h; cases h
  | succ n ih =>
    intro p st st' h a b hab
    simp only [list_deps] at h
    split at h
    · cases h; exact Or.inl hab
    · exact depLoop_origin out (fun d s => list_deps out n d s) p
        (fun d s s' hh => ih d s s' hh) (splitlines (out p))
        ⟨st.edges, st.calls ++ [p]⟩ st' (fun l hl => hl) h a b hab

/-- Every key created by a completed loop is either fully recorded at the
end or is the path currently being processed. -/
theorem depLoop_newkeys_done (out : String → String) (ld : String → St → DRes)
    (path : String)
    (hld_sub : ∀ d s s', ld d s = .ok s' → Sub s.edges s'.edges)
    (hld : ∀ d s s', ld d s = .ok s' → ∀ q, hasKey s'.edges q = true →
      hasKey s.edges q = true ∨ Complete out s' q) :
    ∀ lines (st st' : St), depLoop ld path lines st = .ok st' →
      ∀ q, hasKey st'.edges q = true →
        hasKey st.edges q = true ∨ Complete out st' q ∨ q = path := by
  intro lines
  induction lines with
  | nil => intro st st' h q hq; simp only [depLoop] at h; cases h; exact Or.inl hq
  | cons line rest ih =>
    intro st st' h q hq
    simp only [depLoop] at h
    split at h
    · exact ih st st' h q hq
    · split at h
      · cases h
      · rename_i dep hlast
        split at h
        · rename_i st2 heq
          rcases ih st2 st' h q hq with h2 | h2 | h2
          · rcases hld dep _ st2 heq q h2 with h3 | h3
            · rw [hasKey_addEdge, Bool.or_eq_true] at h3
              rcases h3 with h4 | h4
              · exact Or.inl h4
              · exact Or.inr (Or.inr (beq_iff_eq.1 h4))
            · exact Or.inr (Or.inl (h3.mono (depLoop_sub ld path hld_sub rest st2 st' h)))
          · exact Or.inr (Or.inl h2)
          · exact Or.inr (Or.inr h2)
        · cases h
        · cases h

/-- After a completed `list_deps`, every new key is fully recorded. -/
theorem list_deps_newkeys_done (out : String → String) :
    ∀ (fuel : Nat) (p : String) (st st' : St),
      list_deps out fuel p st = .ok st' →
      ∀ q, hasKey st'.edges q = true →
        hasKey st.edges q = true ∨ Complete out st' q := by
  intro fuel
  induction fuel with
  | zero => intro p st st' h; simp only [list_deps] at h; cases h
  | succ n ih =>
    intro p st st' h q hq
    simp only [list_deps] at h
    split at h
    · cases h; exact Or.inl hq
    · rcases depLoop_newkeys_done out (fun d s => list_deps out n d s) p
        (fun d s s' hh => list_deps_sub out n d s s' hh)
        (fun d s s' hh => ih d s s' hh) (splitlines (out p))
        ⟨st.edges, st.calls ++ [p]⟩ st' h q hq with h2 | h2 | h2
      · exact Or.inl h2
      · exact Or.inr h2
      · subst h2
        refine Or.inr (fun d hd => ?_)
        exact depLoop_pairs (fun d s => list_deps out n d s) q
          (fun d s s' hh => list_deps_sub out n d s s' hh) (splitlines (out q))
          ⟨st.edges, st.calls ++ [q]⟩ st' h d hd

/-- Every pair recorded by a completed loop has a target that is either an
old pair's target, a key, or fully recorded. -/
theorem depLoop_visited (out : String → String) (ld : String → St → DRes)
    (path : String)
    (hld_sub : ∀ d s s', ld d s = .ok s' → Sub s.edges s'.edges)
    (hld_self : ∀ d s s', ld d s = .ok s' → hasKey s.edges d = true ∨ Complete out s' d)
    (hld : ∀ d s s', ld d s = .ok s' → ∀ a b, (a, b) ∈ pairsOf s'.edges →
      (a, b) ∈ pairsOf s.edges ∨ hasKey s'.edges b = true ∨ Complete out s' b) :
    ∀ lines (st st' : St), depLoop ld path lines st = .ok st' →
      ∀ a b, (a, b) ∈ pairsOf st'.edges →
        (a, b) ∈ pairsOf st.edges ∨ hasKey st'.edges b = true ∨ Complete out st' b := by
  intro lines
  induction lines with
  | nil => intro st st' h a b hab; simp only [depLoop] at h; cases h; exact Or.inl hab
  | cons line rest ih =>
    intro st st' h a b hab
    simp only [depLoop] at h
    split at h
    · exact ih st st' h a b hab
    · split at h
      · cases h
      · rename_i dep hlast
        split at h
        · rename_i st2 heq
          have hsub23 : Sub st2.edges st'.edges := depLoop_sub ld path hld_sub rest st2 st' h
          rcases ih st2 st' h a b hab with h2 | h2 | h2
          · rcases hld dep _ st2 heq a b h2 with h3 | h3 | h3
            · rcases mem_pairsOf_addEdge.1 h3 with h4 | ⟨ha, hb⟩
              · exact Or.inl h4
              · rcases hld_self dep _ st2 heq with h5 | h5
                · exact Or.inr (Or.inl (by rw [hb]; exact hsub23.1 dep ((hld_sub dep _ st2 heq).1 dep h5)))
                · exact Or.inr (Or.inr (by rw [hb]; exact h5.mono hsub23))
            · exact Or.inr (Or.inl (hsub23.1 b h3))
            · exact Or.inr (Or.inr (h3.mono hsub23))
          · exact Or.inr (Or.inl h2)
          · exact Or.inr (Or.inr h2)
        · cases h
        · cases h

theorem list_deps_visited (out : String → String) :
    ∀ (fuel : Nat) (p : String) (st st' : St),
      list_deps out fuel p st = .ok st' →
      ∀ a b, (a, b) ∈ pairsOf st'.edges →
        (a, b) ∈ pairsOf st.edges ∨ hasKey st'.edges b = true ∨ Complete out st' b := by
  intro fuel
  induction fuel with
  | zero => intro p st st' h; simp only [list_deps] at h; cases h
  | succ n ih =>
    intro p st st' h a b hab
    simp only [list_deps] at h
    split at h
    · cases h; exact Or.inl hab
    · exact depLoop_visited out (fun d s => list_deps out n d s) p
        (fun d s s' hh => list_deps_sub out n d s s' hh)
        (fun d s s' hh => list_deps_self out n d s s' hh)
        (fun d s s' hh => ih d s s' hh) (splitlines (out p))
        ⟨st.edges, st.calls ++ [p]⟩ st' h a b hab

/-! ### Invocation counting -/

theorem count_append_single_ne {c : List String} {p q : String} (h : q ≠ p) :
    (c ++ [p]).count q = c.count q := by
  have hne : (p == q) ≠ true := fun hh => h (beq_iff_eq.1 hh).symm
  simp [List.count_append, List.count_singleton, hne]

theorem count_append_single_self (c : List String) (p : String) :
    (c ++ [p]).count p = c.count p + 1 := by
  simp [List.count_append, List.count_singleton]

/-- A completed loop never re-invokes the tool on an already keyed path. -/
theorem depLoop_calls_keyed (ld : String → St → DRes) (path : String)
    (hld_sub : ∀ d s s', ld d s = .ok s' → Sub s.edges s'.edges)
    (hld : ∀ d s s', ld d s = .ok s' → ∀ q, hasKey s.edges q = true →
      s'.calls.count q = s.calls.count q) :
    ∀ lines (st st' : St), depLoop ld path lines st = .ok st' →
      ∀ q, hasKey st.edges q = true → st'.calls.count q = st.calls.count q := by
  intro lines
  induction lines with
  | nil => intro st st' h q _; simp only [depLoop] at h; cases h; rfl
  | cons line rest ih =>
    intro st st' h q hq
    simp only [depLoop] at h
    split at h
    · exact ih st st' h q hq
    · split at h
      · cases h
      · rename_i dep hlast
        split at h
        · rename_i st2 heq
          have hq2 : hasKey (addEdge st.edges path dep) q = true :=
            hasKey_addEdge_mono path dep hq
          have e1 : st2.calls.count q = st.calls.count q := hld dep _ st2 heq q hq2
          have hq3 : hasKey st2.edges q = true := (hld_sub dep _ st2 heq).1 q hq2
          rw [ih st2 st' h q hq3, e1]
        · cases h
        · cases h

theorem list_deps_calls_keyed (out : String → String) :
    ∀ (fuel : Nat) (p : String) (st st' : St),
      list_deps out fuel p st = .ok st' →
      ∀ q, hasKey st.edges q = true → st'.calls.count q = st.calls.count q := by
  intro fuel
  induction fuel with
  | zero => intro p st st' h; simp only [list_deps] at h; cases h
  | succ n ih =>
    intro p st st' h q hq
    simp only [list_deps] at h
    split at h
    · cases h; rfl
    · rename_i hk
      have hqp : q ≠ p := fun he => hk (he ▸ hq)
      have e1 : (st.calls ++ [p]).count q = st.calls.count q := count_append_single_ne hqp
      have := depLoop_calls_keyed (fun d s => list_deps out n d s) p
        (fun d s s' hh => list_deps_sub out n d s s' hh)
        (fun d s s' hh => ih d s s' hh) (splitlines (out p))
        ⟨st.edges, st.calls ++ [p]⟩ st' h q hq
      rw [this, e1]

/-- The at-most-once invariant for a fixed path `p`: `p` has been passed to
the tool at most once, and if it has been, it is a key. -/
theorem depLoop_once (out : String → String) (ld : String → St → DRes)
    (path p : String)
    (hld_sub : ∀ d s s', ld d s = .ok s' → Sub s.edges s'.edges)
    (hld_ck : ∀ d s s', ld d s = .ok s' → ∀ q, hasKey s.edges q = true →
      s'.calls.count q = s.calls.count q)
    (hld : ∀ d s s', ld d s = .ok s' →
      (s.calls.count p ≤ 1 ∧ (s.calls.count p = 1 → hasKey s.edges p = true)) →
      (s'.calls.count p ≤ 1 ∧ (s'.calls.count p = 1 → hasKey s'.edges p = true))) :
    ∀ lines (st st' : St), depLoop ld path lines st = .ok st' →
      (st.calls.count p ≤ 1 ∧
        (st.calls.count p = 1 → hasKey st.edges p = true ∨ path = p)) →
      (st'.calls.count p ≤ 1 ∧
        (st'.calls.count p = 1 → hasKey st'.edges p = true ∨ path = p)) := by
  intro lines
  induction lines with
  | nil => intro st st' h hp; simp only [depLoop] at h; cases h; exact hp
  | cons line rest ih =>
    intro st st' h hp
    simp only [depLoop] at h
    split at h
    · exact ih st st' h hp
    · split at h
      · cases h
      · rename_i dep hlast
        split at h
        · rename_i st2 heq
          by_cases hp2 : hasKey (addEdge st.edges path dep) p = true
          · have e1 : st2.calls.count p = st.calls.count p := hld_ck dep _ st2 heq p hp2
            have hp3 : hasKey st2.edges p = true := (hld_sub dep _ st2 heq).1 p hp2
            exact ih st2 st' h ⟨e1 ▸ hp.1, fun _ => Or.inl hp3⟩
          · have hz : st.calls.count p = 0 := by
              rcases Nat.lt_or_ge (st.calls.count p) 1 with h1 | h1
              · omega
              · have h1' : st.calls.count p = 1 := Nat.le_antisymm hp.1 h1
                rcases hp.2 h1' with h2 | h2
                · exact absurd (hasKey_addEdge_mono path dep h2) hp2
                · exact absurd (h2 ▸ hasKey_addEdge_self st.edges path dep) hp2
            have hstep := hld dep _ st2 heq
              ⟨by show st.calls.count p ≤ 1; omega,
               fun hc => absurd (show st.calls.count p = 1 from hc) (by omega)⟩
            exact ih st2 st' h ⟨hstep.1, fun hc => Or.inl (hstep.2 hc)⟩
        · cases h
        · cases h

/-- For a path with at least one non-sentinel output line, a completed
`list_deps` preserves the at-most-once invocation invariant. -/
theorem list_deps_once (out : String → String) (p : String)
    (hreal : ∃ l ∈ splitlines (out p), (l == "mo:prim") = false) :
    ∀ (fuel : Nat) (q : String) (st st' : St),
      list_deps out fuel q st = .ok st' →
      (st.calls.count p ≤ 1 ∧ (st.calls.count p = 1 → hasKey st.edges p = true)) →
      (st'.calls.count p ≤ 1 ∧ (st'.calls.count p = 1 → hasKey st'.edges p = true)) := by
  intro fuel
  induction fuel with
  | zero => intro q st st' h; simp only [list_deps] at h; cases h
  | succ n ih =>
    intro q st st' h hp
    simp only [list_deps] at h
    split at h
    · cases h; exact hp
    · rename_i hk
      by_cases hqp : q = p
      · subst hqp
        have hz : st.calls.count q = 0 := by
          rcases Nat.lt_or_ge (st.calls.count q) 1 with h1 | h1
          · omega
          · exact absurd (hp.2 (Nat.le_antisymm hp.1 h1)) hk
        have e1 : (st.calls ++ [q]).count q = 1 := by
          rw [count_append_single_self, hz]
        have hkey : hasKey st'.edges q = true := by
          obtain ⟨l, hlm, hlf⟩ := hreal
          obtain ⟨d, hd⟩ := depLoop_wf (fun d s => list_deps out n d s) q
            (splitlines (out q)) ⟨st.edges, st.calls ++ [q]⟩ st' h l hlm hlf
          exact hasKey_of_mem_pairsOf
            (depLoop_pairs (fun d s => list_deps out n d s) q
              (fun d s s' hh => list_deps_sub out n d s s' hh) (splitlines (out q))
              ⟨st.edges, st.calls ++ [q]⟩ st' h d
              (mem_depsOfLines.2 ⟨l, hlm, hlf, hd⟩))
        have := depLoop_once out (fun d s => list_deps out n d s) q q
          (fun d s s' hh => list_deps_sub out n d s s' hh)
          (fun d s s' hh => list_deps_calls_keyed out n d s s' hh)
          (fun d s s' hh => ih d s s' hh) (splitlines (out q))
          ⟨st.edges, st.calls ++ [q]⟩ st' h
          ⟨by show (st.calls ++ [q]).count q ≤ 1; omega, fun _ => Or.inr rfl⟩
        exact ⟨this.1, fun _ => hkey⟩
      · have e1 : (st.calls ++ [q]).count p = st.calls.count p :=
          count_append_single_ne (fun he => hqp he.symm)
        have := depLoop_once out (fun d s => list_deps out n d s) q p
          (fun d s s' hh => list_deps_sub out n d s s' hh)
          (fun d s s' hh => list_deps_calls_keyed out n d s s' hh)
          (fun d s s' hh => ih d s s' hh) (splitlines (out q))
          ⟨st.edges, st.calls ++ [q]⟩ st' h
          ⟨e1 ▸ hp.1, fun hc => Or.inl (hp.2 (e1 ▸ hc))⟩
        refine ⟨this.1, fun hc => ?_⟩
        rcases this.2 hc with h2 | h2
        · exact h2
        · exact absurd h2 hqp

/-! ### Fuel sufficiency: the traversal terminates on finite supports -/

theorem filter_length_mono {α : Type} (K : List α) (f g : α → Bool)
    (h : ∀ x, g x = true → f x = true) :
    (K.filter g).length ≤ (K.filter f).length := by
  induction K with
  | nil => simp
  | cons k ks ih =>
    by_cases hg : g k = true
    · rw [List.filter_cons_of_pos hg, List.filter_cons_of_pos (h k hg)]
      simpa using ih
    · rw [List.filter_cons_of_neg (by simpa using hg)]
      by_cases hf : f k = true
      · rw [List.filter_cons_of_pos hf]
        exact Nat.le_succ_of_le ih
      · rw [List.filter_cons_of_neg (by simpa using hf)]
        exact ih

theorem filter_length_lt {α : Type} (K : List α) (f g : α → Bool)
    (h : ∀ x, g x = true → f x = true) (x : α) (hx : x ∈ K)
    (hf : f x = true) (hg : g x = false) :
    (K.filter g).length < (K.filter f).length := by
  induction K with
  | nil => cases hx
  | cons k ks ih =>
    rcases List.mem_cons.1 hx with he | hm
    · subst he
      rw [List.filter_cons_of_pos hf, List.filter_cons_of_neg (by simp [hg])]
      exact Nat.lt_succ_of_le (filter_length_mono ks f g h)
    · by_cases hgk : g k = true
      · rw [List.filter_cons_of_pos hgk, List.filter_cons_of_pos (h k hgk)]
        simpa using ih hm
      · rw [List.filter_cons_of_neg (by simpa using hgk)]
        by_cases hfk : f k = true
        · rw [List.filter_cons_of_pos hfk]
          exact Nat.lt_succ_of_lt (ih hm)
        · rw [List.filter_cons_of_neg (by simpa using hfk)]
          exact ih hm

theorem missing_le (K : List String) (es : List (String × List String)) :
    missing K es ≤ K.length :=
  List.length_filter_le _ K

theorem missing_mono (K : List String) {es es' : List (String × List String)}
    (h : ∀ q, hasKey es q = true → hasKey es' q = true) :
    missing K es' ≤ missing K es := by
  refine filter_length_mono K _ _ ?_
  intro x hx
  simp only [Bool.not_eq_true'] at hx ⊢
  cases hc : hasKey es x
  · rfl
  · exact absurd (h x hc) (by simp [hx])

theorem missing_addEdge_lt {K : List String} {es : List (String × List String)}
    {p : String} (d : String) (hp : p ∈ K) (hk : hasKey es p = false) :
    missing K (addEdge es p d) < missing K es := by
  refine filter_length_lt K _ _ ?_ p hp (by simp [hk]) (by simp [hasKey_addEdge_self])
  intro x hx
  simp only [Bool.not_eq_true'] at hx ⊢
  cases hc : hasKey es x
  · rfl
  · exact absurd (hasKey_addEdge_mono p d hc) (by simp [hx])

theorem missing_addEdge_keyed {es : List (String × List String)} {p : String}
    (K : List String) (d : String) (hk : hasKey es p = true) :
    missing K (addEdge es p d) = missing K es := by
  unfold missing
  congr 1
  apply List.filter_congr
  intro x _
  rw [hasKey_addEdge_of_hasKey d x hk]

theorem depLoop_fuel (out : String → String) (K : List String)
    (hK : ∀ q, splitlines (out q) ≠ [] → q ∈ K) (n : Nat)
    (ld : String → St → DRes)
    (hld_sub : ∀ d s s', ld d s = .ok s' → Sub s.edges s'.edges)
    (hld_fuel : ∀ d s, missing K s.edges < n → ld d s ≠ .outOfFuel)
    (path : String) :
    ∀ lines (st : St),
      (hasKey st.edges path = true → missing K st.edges < n) →
      (hasKey st.edges path = false →
        missing K st.edges < n + 1 ∧ (path ∈ K ∨ lines = [])) →
      depLoop ld path lines st ≠ .outOfFuel := by
  intro lines
  induction lines with
  | nil =>
    intro st _ _ hcon
    simp only [depLoop] at hcon
    cases hcon
  | cons line rest ih =>
    intro st pre1 pre2 hcon
    simp only [depLoop] at hcon
    split at hcon
    · refine ih st pre1 ?_ hcon
      intro hk
      obtain ⟨hm, hko⟩ := pre2 hk
      rcases hko with hko | hko
      · exact ⟨hm, Or.inl hko⟩
      · cases hko
    · split at hcon
      · cases hcon
      · rename_i dep hlast
        have hm2 : missing K (addEdge st.edges path dep) < n := by
          cases hkp : hasKey st.edges path
          · obtain ⟨hm, hko⟩ := pre2 hkp
            rcases hko with hko | hko
            · have := missing_addEdge_lt dep hko hkp
              omega
            · cases hko
          · rw [missing_addEdge_keyed K dep hkp]
            exact pre1 hkp
        have hfu : ld dep ⟨addEdge st.edges path dep, st.calls⟩ ≠ .outOfFuel :=
          hld_fuel dep _ hm2
        revert hcon
        cases hres : ld dep ⟨addEdge st.edges path dep, st.calls⟩ with
        | ok st2 =>
          intro hcon
          have hkey2 : hasKey st2.edges path = true :=
            (hld_sub dep _ st2 hres).1 path (hasKey_addEdge_self st.edges path dep)
          have hm3 : missing K st2.edges ≤ missing K (addEdge st.edges path dep) :=
            missing_mono K (hld_sub dep _ st2 hres).1
          refine ih st2 (fun _ => by omega) ?_ hcon
          intro hf
          exact absurd hf (by simp [hkey2])
        | indexError => intro hcon; cases hcon
        | outOfFuel => intro _; exact hfu hres

theorem list_deps_fuel (out : String → String) (K : List String)
    (hK : ∀ q, splitlines (out q) ≠ [] → q ∈ K) :
    ∀ (fuel : Nat) (p : String) (st : St),
      missing K st.edges < fuel → list_deps out fuel p st ≠ .outOfFuel := by
  intro fuel
  induction fuel with
  | zero => intro p st hm; omega
  | succ n ih =>
    intro p st hm hcon
    simp only [list_deps] at hcon
    split at hcon
    · cases hcon
    · rename_i hk
      refine depLoop_fuel out K hK n (fun d s => list_deps out n d s)
        (fun d s s' hh => list_deps_sub out n d s s' hh)
        (fun d s hms => ih d s hms) p (splitlines (out p))
        ⟨st.edges, st.calls ++ [p]⟩ ?_ ?_ hcon
      · intro htrue
        exact absurd htrue hk
      · intro _
        refine ⟨by show missing K st.edges < n + 1; omega, ?_⟩
        by_cases hsp : splitlines (out p) = []
        · exact Or.inr hsp
        · exact Or.inl (hK p hsp)

/-! ### The discovery loop -/

theorem foldl_topStep_indexError (out : String → String) (fuel : Nat) :
    ∀ files : List String,
      List.foldl (topStep out fuel) .indexError files = .indexError := by
  intro files
  induction files with
  | nil => rfl
  | cons f fs ih => simpa [List.foldl_cons, topStep] using ih

theorem foldl_topStep_outOfFuel (out : String → String) (fuel : Nat) :
    ∀ files : List String,
      List.foldl (topStep out fuel) .outOfFuel files = .outOfFuel := by
  intro files
  induction files with
  | nil => rfl
  | cons f fs ih => simpa [List.foldl_cons, topStep] using ih

/-- Fold induction for the discovery loop: any state predicate preserved by
every completed `list_deps` call on a discovered file holds at the end. -/
theorem foldl_topStep_pred (out : String → String) (fuel : Nat) (P : St → Prop) :
    ∀ (files : List String) (st0 st : St),
      (∀ f ∈ files, ∀ s s', P s → list_deps out fuel f s = .ok s' → P s') →
      P st0 → List.foldl (topStep out fuel) (.ok st0) files = .ok st → P st := by
  intro files
  induction files with
  | nil =>
    intro st0 st _ hP h
    cases h
    exact hP
  | cons f fs ih =>
    intro st0 st hstep hP h
    simp only [List.foldl_cons, topStep] at h
    revert h
    cases hres : list_deps out fuel f st0 with
    | ok st1 =>
      intro h
      exact ih st1 st (fun g hg => hstep g (List.mem_cons_of_mem f hg))
        (hstep f (List.mem_cons_self f fs) st0 st1 hP hres) h
    | indexError =>
      intro h
      rw [foldl_topStep_indexError] at h
      cases h
    | outOfFuel =>
      intro h
      rw [foldl_topStep_outOfFuel] at h
      cases h

theorem foldl_topStep_sub (out : String → String) (fuel : Nat) :
    ∀ (files : List String) (st0 st : St),
      List.foldl (topStep out fuel) (.ok st0) files = .ok st →
      Sub st0.edges st.edges := by
  intro files
  induction files with
  | nil => intro st0 st h; cases h; exact Sub.rfl
  | cons f fs ih =>
    intro st0 st h
    simp only [List.foldl_cons, topStep] at h
    revert h
    cases hres : list_deps out fuel f st0 with
    | ok st1 =>
      intro h
      exact Sub.trans (list_deps_sub out fuel f st0 st1 hres) (ih st1 st h)
    | indexError => intro h; rw [foldl_topStep_indexError] at h; cases h
    | outOfFuel => intro h; rw [foldl_topStep_outOfFuel] at h; cases h

/-- Every discovered file was passed through one completed `list_deps` call
whose final state is below the final state of the run. -/
theorem foldl_topStep_mem (out : String → String) (fuel : Nat) :
    ∀ (files : List String) (st0 st : St),
      List.foldl (topStep out fuel) (.ok st0) files = .ok st →
      ∀ f ∈ files, ∃ s1 s2, list_deps out fuel f s1 = .ok s2 ∧ Sub s2.edges st.edges := by
  intro files
  induction files with
  | nil => intro st0 st _ f hf; cases hf
  | cons g fs ih =>
    intro st0 st h f hf
    simp only [List.foldl_cons, topStep] at h
    revert h
    cases hres : list_deps out fuel g st0 with
    | ok st1 =>
      intro h
      rcases List.mem_cons.1 hf with he | hm
      · exact he ▸ ⟨st0, st1, hres, foldl_topStep_sub out fuel fs st1 st h⟩
      · exact ih st1 st h f hm
    | indexError => intro h; rw [foldl_topStep_indexError] at h; cases h
    | outOfFuel => intro h; rw [foldl_topStep_outOfFuel] at h; cases h

/-- With fuel one more than the size of a support of the resolver, the run
never exhausts its fuel: the Python recursion terminates. -/
theorem topRun_fuel (out : String → String) (K : List String)
    (hK : ∀ q, splitlines (out q) ≠ [] → q ∈ K) (files : List String) :
    topRun out (K.length + 1) files ≠ .outOfFuel := by
  have aux : ∀ (fs : List String) (st0 : St),
      List.foldl (topStep out (K.length + 1)) (.ok st0) fs ≠ .outOfFuel := by
    intro fs
    induction fs with
    | nil => intro st0 h; cases h
    | cons f fs ih =>
      intro st0 h
      simp only [List.foldl_cons, topStep] at h
      revert h
      cases hres : list_deps out (K.length + 1) f st0 with
      | ok st1 => intro h; exact ih st1 h
      | indexError => intro h; rw [foldl_topStep_indexError] at h; cases h
      | outOfFuel =>
        intro _
        exact list_deps_fuel out K hK (K.length + 1) f st0
          (Nat.lt_succ_of_le (missing_le K st0.edges)) hres
  exact aux files ⟨[], []⟩

/-- After a completed `list_deps` on a path with at least one non-sentinel
output line, the path is a key. -/
theorem list_deps_keyed_after (out : String → String) (fuel : Nat) (p : String)
    (st st' : St) (h : list_deps out fuel p st = .ok st')
    (hreal : ∃ l ∈ splitlines (out p), (l == "mo:prim") = false) :
    hasKey st'.edges p = true := by
  cases fuel with
  | zero => simp only [list_deps] at h; cases h
  | succ n =>
    simp only [list_deps] at h
    split at h
    · rename_i hk; cases h; exact hk
    · obtain ⟨l, hlm, hlf⟩ := hreal
      obtain ⟨d, hd⟩ := depLoop_wf (fun d s => list_deps out n d s) p
        (splitlines (out p)) ⟨st.edges, st.calls ++ [p]⟩ st' h l hlm hlf
      exact hasKey_of_mem_pairsOf
        (depLoop_pairs (fun d s => list_deps out n d s) p
          (fun d s s' hh => list_deps_sub out n d s s' hh) (splitlines (out p))
          ⟨st.edges, st.calls ++ [p]⟩ st' h d
          (mem_depsOfLines.2 ⟨l, hlm, hlf, hd⟩))

/-! ### Invariants of a completed run -/

theorem topRun_nodup (out : String → String) (fuel : Nat) (files : List String)
    (st : St) (h : topRun out fuel files = .ok st) : (keysOf st.edges).Nodup := by
  refine foldl_topStep_pred out fuel (fun s => (keysOf s.edges).Nodup) files ⟨[], []⟩ st
    (fun f _ s s' hP hh => list_deps_nodup out fuel f s s' hh hP) ?_ h
  simp [keysOf]

theorem topRun_keysreal (out : String → String) (fuel : Nat) (files : List String)
    (st : St) (h : topRun out fuel files = .ok st) :
    ∀ q, hasKey st.edges q = true →
      ∃ l ∈ splitlines (out q), (l == "mo:prim") = false := by
  refine foldl_topStep_pred out fuel
    (fun s => ∀ q, hasKey s.edges q = true →
      ∃ l ∈ splitlines (out q), (l == "mo:prim") = false) files ⟨[], []⟩ st
    ?_ ?_ h
  · intro f _ s s' hP hh q hq
    rcases list_deps_newkeys_real out fuel f s s' hh q hq with h2 | h2
    · exact hP q h2
    · exact h2
  · intro q hq
    simp [hasKey] at hq

theorem topRun_origin (out : String → String) (fuel : Nat) (files : List String)
    (st : St) (h : topRun out fuel files = .ok st) :
    ∀ a b, (a, b) ∈ pairsOf st.edges →
      ∃ l ∈ splitlines (out a), (l == "mo:prim") = false ∧
        (pySplit l).getLast? = some b := by
  refine foldl_topStep_pred out fuel
    (fun s => ∀ a b, (a, b) ∈ pairsOf s.edges →
      ∃ l ∈ splitlines (out a), (l == "mo:prim") = false ∧
        (pySplit l).getLast? = some b) files ⟨[], []⟩ st ?_ ?_ h
  · intro f _ s s' hP hh a b hab
    rcases list_deps_origin out fuel f s s' hh a b hab with h2 | h2
    · exact hP a b h2
    · exact h2
  · intro a b hab
    simp [pairsOf] at hab

theorem topRun_keys_complete (out : String → String) (fuel : Nat)
    (files : List String) (st : St) (h : topRun out fuel files = .ok st) :
    ∀ q, hasKey st.edges q = true → Complete out st q := by
  have := foldl_topStep_pred out fuel
    (fun s => ∀ q, hasKey s.edges q = true → Complete out s q) files ⟨[], []⟩ st
    ?_ ?_ h
  · exact this
  · intro f _ s s' hP hh q hq
    rcases list_deps_newkeys_done out fuel f s s' hh q hq with h2 | h2
    · exact (hP q h2).mono (list_deps_sub out fuel f s s' hh)
    · exact h2
  · intro q hq
    simp [hasKey] at hq

theorem topRun_visited (out : String → String) (fuel : Nat)
    (files : List String) (st : St) (h : topRun out fuel files = .ok st) :
    ∀ a b, (a, b) ∈ pairsOf st.edges →
      hasKey st.edges b = true ∨ Complete out st b := by
  have := foldl_topStep_pred out fuel
    (fun s => ∀ a b, (a, b) ∈ pairsOf s.edges →
      hasKey s.edges b = true ∨ Complete out s b) files ⟨[], []⟩ st ?_ ?_ h
  · exact this
  · intro f _ s s' hP hh a b hab
    rcases list_deps_visited out fuel f s s' hh a b hab with h2 | h2 | h2
    · rcases hP a b h2 with h3 | h3
      · exact Or.inl ((list_deps_sub out fuel f s s' hh).1 b h3)
      · exact Or.inr (h3.mono (list_deps_sub out fuel f s s' hh))
    · exact Or.inl h2
    · exact Or.inr h2
  · intro a b hab
    simp [pairsOf] at hab

theorem topRun_files (out : String → String) (fuel : Nat)
    (files : List String) (st : St) (h : topRun out fuel files = .ok st) :
    ∀ f ∈ files, hasKey st.edges f = true ∨ Complete out st f := by
  intro f hf
  obtain ⟨s1, s2, hrun, hsub⟩ := foldl_topStep_mem out fuel files ⟨[], []⟩ st h f hf
  rcases list_deps_self out fuel f s1 s2 hrun with h2 | h2
  · exact Or.inl (hsub.1 f ((list_deps_sub out fuel f s1 s2 hrun).1 f h2))
  · exact Or.inr (h2.mono hsub)

theorem topRun_keyed_of_real (out : String → String) (fuel : Nat)
    (files : List String) (st : St) (h : topRun out fuel files = .ok st)
    (f : String) (hf : f ∈ files)
    (hreal : ∃ l ∈ splitlines (out f), (l == "mo:prim") = false) :
    hasKey st.edges f = true := by
  obtain ⟨s1, s2, hrun, hsub⟩ := foldl_topStep_mem out fuel files ⟨[], []⟩ st h f hf
  exact hsub.1 f (list_deps_keyed_after out fuel f s1 s2 hrun hreal)

theorem topRun_once (out : String → String) (fuel : Nat)
    (files : List String) (st : St) (h : topRun out fuel files = .ok st)
    (p : String) (hreal : ∃ l ∈ splitlines (out p), (l == "mo:prim") = false) :
    st.calls.count p ≤ 1 := by
  have := foldl_topStep_pred out fuel
    (fun s => s.calls.count p ≤ 1 ∧ (s.calls.count p = 1 → hasKey s.edges p = true))
    files ⟨[], []⟩ st
    (fun f _ s s' hP hh => list_deps_once out p hreal fuel f s s' hh hP)
    ⟨by simp, by simp⟩ h
  exact this.1

/-! ### Soundness: everything recorded is spec-side reachable -/

theorem depLoop_sound (out : String → String) (files : List String)
    (ld : String → St → DRes) (path : String)
    (hld : ∀ d s s', SpecReach out files d → SoundInv out files s.edges →
      ld d s = .ok s' → SoundInv out files s'.edges)
    (hpath : SpecReach out files path) :
    ∀ lines (st st' : St), (∀ l ∈ lines, l ∈ splitlines (out path)) →
      SoundInv out files st.edges → depLoop ld path lines st = .ok st' →
      SoundInv out files st'.edges := by
  intro lines
  induction lines with
  | nil => intro st st' _ hI h; simp only [depLoop] at h; cases h; exact hI
  | cons line rest ih =>
    intro st st' hlines hI h
    simp only [depLoop] at h
    split at h
    · exact ih st st' (fun l hl => hlines l (List.mem_cons_of_mem line hl)) hI h
    · rename_i hs
      split at h
      · cases h
      · rename_i dep hlast
        split at h
        · rename_i st2 heq
          have hdep : dep ∈ specDeps out path :=
            mem_depsOfLines.2 ⟨line, hlines line (List.mem_cons_self line rest),
              Bool.eq_false_iff.2 hs, hlast⟩
          have hI2 : SoundInv out files (addEdge st.edges path dep) := by
            constructor
            · intro q hq
              rw [hasKey_addEdge, Bool.or_eq_true] at hq
              rcases hq with hq | hq
              · exact hI.1 q hq
              · exact (beq_iff_eq.1 hq) ▸ hpath
            · intro a b hab
              rcases mem_pairsOf_addEdge.1 hab with hab | ⟨ha, hb⟩
              · exact hI.2 a b hab
              · subst ha; subst hb
                exact ⟨hpath, hdep⟩
          exact ih st2 st' (fun l hl => hlines l (List.mem_cons_of_mem line hl))
            (hld dep _ st2 (SpecReach.step hpath hdep) hI2 heq) h
        · cases h
        · cases h

theorem list_deps_sound (out : String → String) (files : List String) :
    ∀ (fuel : Nat) (p : String) (st st' : St), SpecReach out files p →
      SoundInv out files st.edges → list_deps out fuel p st = .ok st' →
      SoundInv out files st'.edges := by
  intro fuel
  induction fuel with
  | zero => intro p st st' _ _ h; simp only [list_deps] at h; cases h
  | succ n ih =>
    intro p st st' hp hI h
    simp only [list_deps] at h
    split at h
    · cases h; exact hI
    · exact depLoop_sound out files (fun d s => list_deps out n d s) p
        (fun d s s' hd hI2 hh => ih d s s' hd hI2 hh) hp (splitlines (out p))
        ⟨st.edges, st.calls ++ [p]⟩ st' (fun l hl => hl) hI h

theorem topRun_sound (out : String → String) (fuel : Nat) (files : List String)
    (st : St) (h : topRun out fuel files = .ok st) :
    SoundInv out files st.edges := by
  refine foldl_topStep_pred out fuel (fun s => SoundInv out files s.edges)
    files ⟨[], []⟩ st ?_ ?_ h
  · intro f hf s s' hP hh
    exact list_deps_sound out files fuel f s s' (SpecReach.base hf) hP hh
  · constructor
    · intro q hq; simp [hasKey] at hq
    · intro a b hab; simp [pairsOf] at hab

/-- Every spec-side reachable path is fully recorded after a completed run. -/
theorem topRun_reach_complete (out : String → String) (fuel : Nat)
    (files : List String) (st : St) (h : topRun out fuel files = .ok st) :
    ∀ g, SpecReach out files g → Complete out st g := by
  intro g hg
  induction hg with
  | base hf =>
    rename_i f
    rcases topRun_files out fuel files st h f hf with hk | hk
    · exact topRun_keys_complete out fuel files st h f hk
    · exact hk
  | step hr hd ihg =>
    rename_i f d
    have hpair : (f, d) ∈ pairsOf st.edges := ihg d hd
    rcases topRun_visited out fuel files st h f d hpair with hk | hk
    · exact topRun_keys_complete out fuel files st h d hk
    · exact hk

/-- The recorded pairs of a completed run are exactly the spec-side
reachable (source, dependency) pairs. -/
theorem topRun_pairs_iff (out : String → String) (fuel : Nat)
    (files : List String) (st : St) (h : topRun out fuel files = .ok st) :
    ∀ a b, (a, b) ∈ pairsOf st.edges ↔
      SpecReach out files a ∧ b ∈ specDeps out a := by
  intro a b
  constructor
  · intro hab
    exact (topRun_sound out fuel files st h).2 a b hab
  · rintro ⟨hre, hb⟩
    exact topRun_reach_complete out fuel files st h a hre b hb

theorem alistResolver_not_mem (a : List (String × RunOut)) (q : String)
    (h : ¬ q ∈ a.map Prod.fst) : alistResolver a q = ⟨0, ""⟩ := by
  have hnone : a.find? (fun e => e.1 == q) = none :=
    List.find?_eq_none.2 (fun x hx hbe => h (List.mem_map.2 ⟨x, hx, beq_iff_eq.1 hbe⟩))
  unfold alistResolver
  rw [hnone]

/-! ### Claim theorems -/

/-- C1, counterexample.  The claim "every discovered source file appears
exactly once as a key of the dependency mapping, and the resolver is invoked
at most once per distinct file path" is false on the code: a discovered file
with no dependencies (`"L"` with empty tool output) never becomes a key, and
a dependency-free file reachable from two parents (`"L"` below) is passed to
the tool twice, because only paths that receive an edge are memoized. -/
theorem claim_C1_counterexample :
    (topRun (stdoutOf (alistResolver [("L", RunOut.mk 0 "")])) 5 ["L"] =
        .ok ⟨[], ["L"]⟩ ∧
      hasKey ([] : List (String × List String)) "L" = false) ∧
    (topRun (stdoutOf (alistResolver
          [("A", RunOut.mk 0 "L"), ("B", RunOut.mk 0 "L")])) 5 ["A", "B"] =
        .ok ⟨[("A", ["L"]), ("B", ["L"])], ["A", "L", "B", "L"]⟩ ∧
      List.count "L" ["A", "L", "B", "L"] = 2) := by
  decide

/-- C2, counterexample.  The claim "on a non-zero exit status the exporter
aborts and prints no graph document" is false on the code: `subprocess.run`
is called without `check=True`, the exit code is never read, and with a
resolver exiting with status 1 the exporter still prints a complete graph
document. -/
theorem claim_C2_counterexample :
    (alistResolver [("A", RunOut.mk 1 "")] "A").exitCode = 1 ∧
    module_graph_output (alistResolver [("A", RunOut.mk 1 "")]) 5 ["A"] =
      .ok "digraph Base \x7b\n\x7d\n" := by
  decide

/-- C2, amended: the exporter ignores the exit status of the external tool
entirely — its output depends only on the captured standard output of each
invocation, so a non-zero exit status with the same captured stdout produces
the same (complete) graph document instead of aborting. -/
theorem claim_C2 (r1 r2 : String → RunOut) (fuel : Nat) (files : List String)
    (h : ∀ p, (r1 p).stdout = (r2 p).stdout) :
    module_graph_output r1 fuel files = module_graph_output r2 fuel files := by
  have he : stdoutOf r1 = stdoutOf r2 := funext h
  simp only [module_graph_output, he]

theorem claim_C2_witness :
    (∀ p, (alistResolver [("A", RunOut.mk 0 "B")] p).stdout =
        (alistResolver [("A", RunOut.mk 1 "B")] p).stdout) ∧
    module_graph_output (alistResolver [("A", RunOut.mk 0 "B")]) 5 ["A"] =
      module_graph_output (alistResolver [("A", RunOut.mk 1 "B")]) 5 ["A"] := by
  have hstd : ∀ p, (alistResolver [("A", RunOut.mk 0 "B")] p).stdout =
      (alistResolver [("A", RunOut.mk 1 "B")] p).stdout := by
    intro p
    by_cases hp : ("A" == p) = true <;>
      simp [alistResolver, List.find?, hp]
  exact ⟨hstd, claim_C2 _ _ 5 ["A"] hstd⟩

/-- C3, counterexample.  The claim "`mo:prim` never becomes an edge, even
when it appears as the last token of a multi-token line" is false on the
code: only lines exactly equal to `"mo:prim"` are skipped, so the line
`"x mo:prim"` yields an emitted edge with target `"mo:prim"`. -/
theorem claim_C3_counterexample :
    module_graph_output (alistResolver [("A", RunOut.mk 0 "x mo:prim")]) 5 ["A"] =
      .ok "digraph Base \x7b\n  \"A\" -> \"mo:prim\"\n\x7d\n" := by
  decide

/-- C7.  The nav indexer sort key splits a name into its head (trailing ASCII
digits stripped) and numeric tail (0 when absent); the keys of `Array2`,
`Array10`, `Buffer1` are strictly increasing under tuple comparison, and a
tree containing `Array.mo`, `Array2.mo`, `Array10.mo` renders in the order
`Array`, `Array2`, `Array10` regardless of discovery order. -/
theorem claim_C7 :
    sort_name "Array2" = ("Array", 2) ∧
    sort_name "Array10" = ("Array", 10) ∧
    sort_name "Buffer1" = ("Buffer", 1) ∧
    sort_name "Array" = ("Array", 0) ∧
    keyLt (sort_name "Array2") (sort_name "Array10") = true ∧
    keyLt (sort_name "Array10") (sort_name "Buffer1") = true ∧
    module_nav_output ["src/Array10.mo", "src/Array2.mo", "src/Array.mo"] =
      "* xref:stdlib-intro.adoc[Motoko Base Library]\n" ++
      "** xref:./Array.adoc[Array]\n** xref:./Array2.adoc[Array2]\n" ++
      "** xref:./Array10.adoc[Array10]\n" := by
  decide

/-- C8.  A dependency-output line with no whitespace-separated tokens makes
the loop abort with the uncaught `IndexError` immediately (no edge is
recorded, no further line is processed), and the exporter then produces no
graph document at all. -/
theorem claim_C8 :
    (∀ (ld : String → St → DRes) (path line : String) (rest : List String) (st : St),
      pySplit line = [] → depLoop ld path (line :: rest) st = .indexError) ∧
    module_graph_output (alistResolver [("A", RunOut.mk 0 " ")]) 5 ["A"] =
      .error .indexError := by
  constructor
  · intro ld path line rest st hline
    have hs : (line == "mo:prim") = false := by
      cases hc : (line == "mo:prim")
      · rfl
      · have he : line = "mo:prim" := beq_iff_eq.1 hc
        rw [he] at hline
        exact absurd hline (by decide)
    have hlast : (pySplit line).getLast? = none := by rw [hline]; rfl
    simp only [depLoop, hs, Bool.false_eq_true, if_false, hlast]
  · decide

theorem claim_C8_witness :
    pySplit " " = [] ∧
    depLoop (fun _ s => DRes.ok s) "p" [" "] ⟨[], []⟩ = .indexError :=
  ⟨by decide, (claim_C8).1 (fun _ s => DRes.ok s) "p" " " [] ⟨[], []⟩ (by decide)⟩

/-- C9.  Both utilities are deterministic: they are pure functions of the
discovered file list and of the per-file tool output, so two runs over the
same file list with pointwise-equal resolver results produce byte-identical
documents. -/
theorem claim_C9 (r1 r2 : String → RunOut) (files1 files2 : List String)
    (fuel : Nat) (hout : ∀ p, r1 p = r2 p) (hfiles : files1 = files2) :
    module_graph_output r1 fuel files1 = module_graph_output r2 fuel files2 ∧
    module_nav_output files1 = module_nav_output files2 := by
  subst hfiles
  have he : r1 = r2 := funext hout
  subst he
  exact ⟨rfl, rfl⟩

theorem claim_C9_witness :
    (∀ p, alistResolver [("A", RunOut.mk 0 "B")] p =
        alistResolver [("A", RunOut.mk 0 "B")] p) ∧
    (module_graph_output (alistResolver [("A", RunOut.mk 0 "B")]) 5 ["A"] =
        module_graph_output (alistResolver [("A", RunOut.mk 0 "B")]) 5 ["A"] ∧
      module_nav_output ["A"] = module_nav_output ["A"]) :=
  ⟨fun _ => rfl, claim_C9 _ _ ["A"] ["A"] 5 (fun _ => rfl) rfl⟩

/-- C1, amended.  In every completed run: the mapping never holds a key
twice; every discovered file with at least one non-sentinel dependency line
appears as a key (exactly once, by the first conjunct); and the resolver is
invoked at most once per distinct path that has at least one non-sentinel
dependency line.  (Dependency-free paths are never keys and may be resolved
repeatedly — the counterexample above.) -/
theorem claim_C1 (out : String → String) (fuel : Nat) (files : List String)
    (st : St) (h : topRun out fuel files = .ok st) :
    (keysOf st.edges).Nodup ∧
    (∀ f ∈ files, (∃ l ∈ splitlines (out f), (l == "mo:prim") = false) →
      hasKey st.edges f = true) ∧
    (∀ p, (∃ l ∈ splitlines (out p), (l == "mo:prim") = false) →
      st.calls.count p ≤ 1) :=
  ⟨topRun_nodup out fuel files st h,
   fun f hf hr => topRun_keyed_of_real out fuel files st h f hf hr,
   fun p hr => topRun_once out fuel files st h p hr⟩

theorem claim_C1_witness :
    topRun (stdoutOf (alistResolver [("A", RunOut.mk 0 "L"), ("B", RunOut.mk 0 "L")]))
        5 ["A", "B"] =
      .ok ⟨[("A", ["L"]), ("B", ["L"])], ["A", "L", "B", "L"]⟩ ∧
    ((keysOf ((⟨[("A", ["L"]), ("B", ["L"])], ["A", "L", "B", "L"]⟩ : St).edges)).Nodup ∧
      (∀ f ∈ ["A", "B"],
        (∃ l ∈ splitlines (stdoutOf (alistResolver
            [("A", RunOut.mk 0 "L"), ("B", RunOut.mk 0 "L")]) f),
          (l == "mo:prim") = false) →
        hasKey ((⟨[("A", ["L"]), ("B", ["L"])], ["A", "L", "B", "L"]⟩ : St).edges) f = true) ∧
      (∀ p, (∃ l ∈ splitlines (stdoutOf (alistResolver
            [("A", RunOut.mk 0 "L"), ("B", RunOut.mk 0 "L")]) p),
          (l == "mo:prim") = false) →
        ((⟨[("A", ["L"]), ("B", ["L"])], ["A", "L", "B", "L"]⟩ : St).calls.count p ≤ 1))) :=
  ⟨by decide, claim_C1 _ 5 ["A", "B"] _ (by decide)⟩

/-- C3, amended.  Every recorded (and hence emitted) edge originates from an
output line that is not exactly equal to `"mo:prim"` and whose last
whitespace-separated token is the edge target; consequently, lines exactly
equal to the sentinel never produce an edge, and the sentinel never appears
as an edge target provided it never occurs as the last token of a
multi-token line.  (A multi-token line ending in `mo:prim` does produce such
an edge — the counterexample above.) -/
theorem claim_C3 (out : String → String) (fuel : Nat) (files : List String)
    (st : St) (h : topRun out fuel files = .ok st) :
    (∀ a b, (a, b) ∈ pairsOf st.edges →
      ∃ l ∈ splitlines (out a), (l == "mo:prim") = false ∧
        (pySplit l).getLast? = some b) ∧
    ((∀ p l, l ∈ splitlines (out p) → (pySplit l).getLast? = some "mo:prim" →
        l = "mo:prim") →
      ∀ a b, (a, b) ∈ pairsOf st.edges → b ≠ "mo:prim") := by
  refine ⟨topRun_origin out fuel files st h, ?_⟩
  intro hno a b hab hb
  obtain ⟨l, hl, hs, hlast⟩ := topRun_origin out fuel files st h a b hab
  subst hb
  exact absurd (hno a l hl hlast) (by simpa using hs)

theorem claim_C3_witness :
    topRun (stdoutOf (alistResolver [("A", RunOut.mk 0 "B")])) 5 ["A"] =
      .ok ⟨[("A", ["B"])], ["A", "B"]⟩ ∧
    ((∀ a b, (a, b) ∈ pairsOf ((⟨[("A", ["B"])], ["A", "B"]⟩ : St).edges) →
      ∃ l ∈ splitlines (stdoutOf (alistResolver [("A", RunOut.mk 0 "B")]) a),
        (l == "mo:prim") = false ∧ (pySplit l).getLast? = some b) ∧
    ((∀ p l, l ∈ splitlines (stdoutOf (alistResolver [("A", RunOut.mk 0 "B")]) p) →
        (pySplit l).getLast? = some "mo:prim" → l = "mo:prim") →
      ∀ a b, (a, b) ∈ pairsOf ((⟨[("A", ["B"])], ["A", "B"]⟩ : St).edges) →
        b ≠ "mo:prim")) :=
  ⟨by decide, claim_C3 _ 5 ["A"] _ (by decide)⟩

/-- C4.  After a completed traversal the exporter emits exactly the header,
one edge line per recorded pair, and the footer; and the recorded pairs are
exactly the (file, dependency) pairs spec-side transitively reachable from
the discovered files, where the spec-side dependencies of a file are the
last tokens of its non-sentinel output lines. -/
theorem claim_C4 (resolver : String → RunOut) (fuel : Nat) (files : List String)
    (st : St) (h : topRun (stdoutOf resolver) fuel files = .ok st) :
    module_graph_output resolver fuel files =
      .ok ("digraph Base \x7b\n" ++ renderEdges st.edges ++ "\x7d\n") ∧
    (∀ a b, (a, b) ∈ pairsOf st.edges ↔
      SpecReach (stdoutOf resolver) files a ∧ b ∈ specDeps (stdoutOf resolver) a) := by
  constructor
  · simp only [module_graph_output, h]
  · exact topRun_pairs_iff (stdoutOf resolver) fuel files st h

theorem claim_C4_witness :
    topRun (stdoutOf (alistResolver [("C", RunOut.mk 0 "D")])) 5 ["C"] =
      .ok ⟨[("C", ["D"])], ["C", "D"]⟩ ∧
    (module_graph_output (alistResolver [("C", RunOut.mk 0 "D")]) 5 ["C"] =
      .ok ("digraph Base \x7b\n" ++
        renderEdges ((⟨[("C", ["D"])], ["C", "D"]⟩ : St).edges) ++ "\x7d\n") ∧
    (∀ a b, (a, b) ∈ pairsOf ((⟨[("C", ["D"])], ["C", "D"]⟩ : St).edges) ↔
      SpecReach (stdoutOf (alistResolver [("C", RunOut.mk 0 "D")])) ["C"] a ∧
        b ∈ specDeps (stdoutOf (alistResolver [("C", RunOut.mk 0 "D")])) a)) :=
  ⟨by decide, claim_C4 _ 5 ["C"] _ (by decide)⟩

/-- C5.  For a tool with finite support containing a dependency cycle
between `A` and `B`, with `A` among the discovered files: the traversal
terminates (fuel one more than the support size is never exhausted), and in
every completed run `A` and `B` each appear exactly once among the keys of
the mapping. -/
theorem claim_C5 (a : List (String × RunOut)) (files : List String) (A B : String)
    (hAf : A ∈ files)
    (hAB : ∃ l ∈ splitlines (stdoutOf (alistResolver a) A),
      (l == "mo:prim") = false ∧ (pySplit l).getLast? = some B)
    (hBA : ∃ l ∈ splitlines (stdoutOf (alistResolver a) B),
      (l == "mo:prim") = false ∧ (pySplit l).getLast? = some A) :
    topRun (stdoutOf (alistResolver a)) ((a.map Prod.fst).length + 1) files ≠
      .outOfFuel ∧
    ∀ st, topRun (stdoutOf (alistResolver a)) ((a.map Prod.fst).length + 1) files =
        .ok st →
      List.count A (keysOf st.edges) = 1 ∧ List.count B (keysOf st.edges) = 1 := by
  have hK : ∀ q, splitlines (stdoutOf (alistResolver a) q) ≠ [] →
      q ∈ a.map Prod.fst := by
    intro q hq
    by_contra hnq
    rw [show stdoutOf (alistResolver a) q = "" from by
      rw [stdoutOf, alistResolver_not_mem a q hnq]] at hq
    exact hq (by decide)
  refine ⟨topRun_fuel _ (a.map Prod.fst) hK files, ?_⟩
  intro st hok
  have hnd := topRun_nodup (stdoutOf (alistResolver a))
    ((a.map Prod.fst).length + 1) files st hok
  obtain ⟨lA, hlA, hsA, hlastA⟩ := hAB
  obtain ⟨lB, hlB, hsB, hlastB⟩ := hBA
  have hkA : hasKey st.edges A = true :=
    topRun_keyed_of_real (stdoutOf (alistResolver a))
      ((a.map Prod.fst).length + 1) files st hok A hAf ⟨lA, hlA, hsA⟩
  have hBdep : B ∈ specDeps (stdoutOf (alistResolver a)) A :=
    mem_depsOfLines.2 ⟨lA, hlA, hsA, hlastA⟩
  have hAdep : A ∈ specDeps (stdoutOf (alistResolver a)) B :=
    mem_depsOfLines.2 ⟨lB, hlB, hsB, hlastB⟩
  have hpairAB : (A, B) ∈ pairsOf st.edges :=
    topRun_keys_complete (stdoutOf (alistResolver a))
      ((a.map Prod.fst).length + 1) files st hok A hkA B hBdep
  have hkB : hasKey st.edges B = true := by
    rcases topRun_visited (stdoutOf (alistResolver a))
      ((a.map Prod.fst).length + 1) files st hok A B hpairAB with hk | hc
    · exact hk
    · exact hasKey_of_mem_pairsOf (hc A hAdep)
  exact ⟨List.count_eq_one_of_mem hnd (hasKey_iff_mem.1 hkA),
    List.count_eq_one_of_mem hnd (hasKey_iff_mem.1 hkB)⟩

theorem claim_C5_witness :
    ("A" ∈ ["A"] ∧
      (∃ l ∈ splitlines (stdoutOf (alistResolver
          [("A", RunOut.mk 0 "B"), ("B", RunOut.mk 0 "A")]) "A"),
        (l == "mo:prim") = false ∧ (pySplit l).getLast? = some "B") ∧
      (∃ l ∈ splitlines (stdoutOf (alistResolver
          [("A", RunOut.mk 0 "B"), ("B", RunOut.mk 0 "A")]) "B"),
        (l == "mo:prim") = false ∧ (pySplit l).getLast? = some "A")) ∧
    (topRun (stdoutOf (alistResolver [("A", RunOut.mk 0 "B"), ("B", RunOut.mk 0 "A")]))
        (([("A", RunOut.mk 0 "B"), ("B", RunOut.mk 0 "A")].map Prod.fst).length + 1)
        ["A"] ≠ .outOfFuel ∧
      ∀ st, topRun (stdoutOf (alistResolver
            [("A", RunOut.mk 0 "B"), ("B", RunOut.mk 0 "A")]))
          (([("A", RunOut.mk 0 "B"), ("B", RunOut.mk 0 "A")].map Prod.fst).length + 1)
          ["A"] = .ok st →
        List.count "A" (keysOf st.edges) = 1 ∧ List.count "B" (keysOf st.edges) = 1) :=
  ⟨⟨by decide, by decide, by decide⟩,
   claim_C5 [("A", RunOut.mk 0 "B"), ("B", RunOut.mk 0 "A")] ["A"] "A" "B"
     (by decide) (by decide) (by decide)⟩

/-- C6.  No edge ever arises from a line exactly equal to the sentinel
(every recorded pair originates from a non-sentinel line), and in the
spec scenario — `A.mo` depends on `B.mo` and `mo:prim`, `B.mo` has no
dependencies — the emitted document contains exactly the single edge line
between the quoted file names. -/
theorem claim_C6 (out : String → String) (fuel : Nat) (files : List String)
    (st : St) (h : topRun out fuel files = .ok st) :
    (∀ a b, (a, b) ∈ pairsOf st.edges →
      ∃ l ∈ splitlines (out a), (l == "mo:prim") = false ∧
        (pySplit l).getLast? = some b) ∧
    module_graph_output (alistResolver
        [("A.mo", RunOut.mk 0 "B.mo\nmo:prim"), ("B.mo", RunOut.mk 0 "")]) 5
        ["A.mo", "B.mo"] =
      .ok "digraph Base \x7b\n  \"A.mo\" -> \"B.mo\"\n\x7d\n" :=
  ⟨topRun_origin out fuel files st h, by decide⟩

theorem claim_C6_witness :
    topRun (stdoutOf (alistResolver
        [("A.mo", RunOut.mk 0 "B.mo\nmo:prim"), ("B.mo", RunOut.mk 0 "")])) 5
        ["A.mo", "B.mo"] =
      .ok ⟨[("A.mo", ["B.mo"])], ["A.mo", "B.mo", "B.mo"]⟩ ∧
    ((∀ a b, (a, b) ∈ pairsOf ((⟨[("A.mo", ["B.mo"])],
          ["A.mo", "B.mo", "B.mo"]⟩ : St).edges) →
      ∃ l ∈ splitlines (stdoutOf (alistResolver
          [("A.mo", RunOut.mk 0 "B.mo\nmo:prim"), ("B.mo", RunOut.mk 0 "")]) a),
        (l == "mo:prim") = false ∧ (pySplit l).getLast? = some b) ∧
    module_graph_output (alistResolver
        [("A.mo", RunOut.mk 0 "B.mo\nmo:prim"), ("B.mo", RunOut.mk 0 "")]) 5
        ["A.mo", "B.mo"] =
      .ok "digraph Base \x7b\n  \"A.mo\" -> \"B.mo\"\n\x7d\n") :=
  ⟨by decide, claim_C6 _ 5 ["A.mo", "B.mo"] _ (by decide)⟩

/-- C10.  A reachable path whose entire tool output consists of sentinel
lines (in particular, a path with empty output) never becomes a key of the
mapping and never occurs as the source of a recorded pair, hence of an
emitted edge line: isolated modules are absent from the graph document. -/
theorem claim_C10 (out : String → String) (fuel : Nat) (files : List String)
    (st : St) (h : topRun out fuel files = .ok st) (f : String)
    (hall : ∀ l ∈ splitlines (out f), l = "mo:prim") :
    hasKey st.edges f = false ∧ ∀ a b, (a, b) ∈ pairsOf st.edges → a ≠ f := by
  have hkey : hasKey st.edges f = false := by
    cases hc : hasKey st.edges f
    · rfl
    · obtain ⟨l, hl, hs⟩ := topRun_keysreal out fuel files st h f hc
      exact absurd (hall l hl) (by simpa using hs)
  refine ⟨hkey, ?_⟩
  intro a b hab ha
  subst ha
  rw [hasKey_of_mem_pairsOf hab] at hkey
  cases hkey

theorem claim_C10_witness :
    (topRun (stdoutOf (alistResolver [("A", RunOut.mk 0 "L")])) 5 ["A"] =
        .ok ⟨[("A", ["L"])], ["A", "L"]⟩ ∧
      (∀ l ∈ splitlines (stdoutOf (alistResolver [("A", RunOut.mk 0 "L")]) "L"),
        l = "mo:prim")) ∧
    (hasKey ((⟨[("A", ["L"])], ["A", "L"]⟩ : St).edges) "L" = false ∧
      ∀ a b, (a, b) ∈ pairsOf ((⟨[("A", ["L"])], ["A", "L"]⟩ : St).edges) → a ≠ "L") :=
  ⟨⟨by decide, by decide⟩,
   claim_C10 (stdoutOf (alistResolver [("A", RunOut.mk 0 "L")])) 5 ["A"]
     ⟨[("A", ["L"])], ["A", "L"]⟩ (by decide) "L" (by decide)⟩

end ModuleDoc
